import Mathlib

/-!
Verification development for the article storage subsystem of the
`seo-agent-sdk` repository (`src/mcp_servers/articles_server.py`).

The Python module stores one article per JSON file in a directory.  We model
the directory as a list of named files (`Store`); a file either parses to an
`Article` record or is corrupt (unparseable JSON).  Machine-level concerns
(actual JSON text, the filesystem path, the MCP wire format) are abstracted:
a parsed record is carried directly, and `json.dumps` of a found record is
modelled by returning the record itself.  Wall-clock readings
(`datetime.now().strftime('%Y%m%d%H%M%S')` and `datetime.now().isoformat()`)
are passed in as explicit string parameters `ts` / `nowIso`.

Character classes model the ASCII fragment of Python's `re` classes:
`\w = [a-zA-Z0-9_]`, `\s = [ \t\n\r\x0b\x0c]`.
-/

/-- Python `\w` (ASCII fragment): letters, digits, underscore. -/
def isWordChar (c : Char) : Bool := c.isAlpha || c.isDigit || c == '_'

/-- Python `\s` (ASCII fragment): space, tab, newline, carriage return,
vertical tab, form feed. -/
def isPySpace (c : Char) : Bool :=
  c == ' ' || c == '\t' || c == '\n' || c == '\r' || c.val == 11 || c.val == 12

/-- Characters kept by `re.sub(r"[^\w\s-]", "", text)`. -/
def keepChar (c : Char) : Bool := isWordChar c || isPySpace c || c == '-'

/-- `re.sub(r"\s+", "-", text)`: each maximal run of whitespace becomes a
single hyphen. -/
def collapseWs : List Char → List Char
| [] => []
| [c] => if isPySpace c then ['-'] else [c]
| a :: b :: rest =>
    if isPySpace a && isPySpace b then collapseWs (b :: rest)
    else (if isPySpace a then '-' else a) :: collapseWs (b :: rest)

/-- `re.sub(r"-+", "-", text)`: each maximal run of hyphens becomes a single
hyphen. -/
def collapseHy : List Char → List Char
| [] => []
| [c] => [c]
| a :: b :: rest =>
    if a == '-' && b == '-' then collapseHy (b :: rest)
    else a :: collapseHy (b :: rest)

/-- Python `str.strip("-")`: remove leading and trailing hyphens. -/
def stripHy (l : List Char) : List Char :=
  ((l.dropWhile (fun c => c == '-')).reverse.dropWhile (fun c => c == '-')).reverse

/-- `slugify` on character lists: lowercase, strip non-kept characters,
collapse whitespace runs to hyphens, collapse hyphen runs, strip edge
hyphens — the exact pipeline of `articles_server.slugify`. -/
def slugifyL (l : List Char) : List Char :=
  stripHy (collapseHy (collapseWs ((l.map Char.toLower).filter keepChar)))

/-- `articles_server.slugify`. -/
def slugify (s : String) : String := ⟨slugifyL s.data⟩

/-- The spec's wording of the character filter: strip characters that are
neither word characters, whitespace, nor hyphen (so keep a character iff it
is not such a stripped character). -/
def keepCharSpec (c : Char) : Bool :=
  !(!isWordChar c && !isPySpace c && !(c == '-'))

/-- Reference slugify transcribed from the spec's policy steps (§4.1):
lowercase; strip characters that are neither word characters, whitespace,
nor hyphen; collapse whitespace runs to a single hyphen; collapse hyphen
runs to one; trim leading/trailing hyphens. -/
def slugifySpec (s : String) : String :=
  ⟨stripHy (collapseHy (collapseWs ((s.data.map Char.toLower).filter keepCharSpec)))⟩

/-- The Article record, with the exact field names of the JSON document
written by `save_article`.  `publishedAt` is `Option String` so that a
record whose `publishedAt` key is absent or `null` (possible for records
not written by `save_article`) is representable; `schemaMarkup` is a
key/value document. -/
structure Article where
  id : String
  slug : String
  title : String
  metaDescription : String
  content : String
  primaryKeyword : String
  secondaryKeywords : List String
  imageUrl : String
  imageAlt : String
  schemaMarkup : List (String × String)
  status : String
  createdAt : String
  publishedAt : Option String
deriving DecidableEq, Repr

/-- A stored file either parses to an article or is corrupt JSON. -/
inductive FileContent where
| ok (a : Article)
| corrupt
deriving DecidableEq, Repr

/-- The storage directory: a list of (filename, content) pairs, in directory
enumeration (glob) order.  Filenames in a real directory are distinct. -/
abbrev Store := List (String × FileContent)

/-- Python truthiness of `article.get("publishedAt")`: a missing key or
`None` and the empty string are falsy. -/
def isTruthy : Option String → Bool
| none => false
| some s => s != ""

/-- The default `schemaMarkup` built by `save_article` when none is given. -/
def defaultSchema (title metaDescription : String) : List (String × String) :=
  [("@context", "https://schema.org"), ("@type", "Article"),
   ("headline", title), ("description", metaDescription)]

/-- The record constructed by `save_article` (`ts` is
`datetime.now().strftime('%Y%m%d%H%M%S')`, `nowIso` is
`datetime.now().isoformat()`).  `schema_markup or {...}` in Python replaces
both `None` and an empty dict by the default. -/
def mkArticle (title content meta_description primary_keyword : String)
    (secondary_keywords : List String) (image_url : String)
    (schema_markup : Option (List (String × String)))
    (ts nowIso : String) : Article :=
  let slug := slugify title
  { id := slug ++ "-" ++ ts
    slug := slug
    title := title
    metaDescription := meta_description
    content := content
    primaryKeyword := primary_keyword
    secondaryKeywords := secondary_keywords
    imageUrl := image_url
    imageAlt := title ++ " - Premium Gin and Tonic Guide"
    schemaMarkup :=
      match schema_markup with
      | some m => if m.isEmpty then defaultSchema title meta_description else m
      | none => defaultSchema title meta_description
    status := "published"
    createdAt := nowIso
    publishedAt := some nowIso }

/-- `open(file_path, "w")` + `json.dump`: overwrite the file of that name if
present, otherwise create a new one. -/
def writeFile : Store → String → FileContent → Store
| [], n, c => [(n, c)]
| (m, d) :: rest, n, c =>
    if m == n then (n, c) :: rest else (m, d) :: writeFile rest n c

/-- `articles_server.save_article` (the storage path in the confirmation
message is not modelled). -/
def save_article (title content meta_description primary_keyword : String)
    (secondary_keywords : List String) (image_url : String)
    (schema_markup : Option (List (String × String)))
    (ts nowIso : String) (st : Store) : Store × String :=
  let a := mkArticle title content meta_description primary_keyword
    secondary_keywords image_url schema_markup ts nowIso
  (writeFile st (a.id ++ ".json") (.ok a),
   "Article saved successfully!\nID: " ++ a.id ++ "\nSlug: " ++ a.slug)

/-- The filter condition of `get_articles`:
`status == "all" or article.get("status") == status`. -/
def statusMatches (status : String) (a : Article) : Bool :=
  status == "all" || a.status == status

/-- Code-point comparison of characters, as Python compares strings. -/
def charListLt : List Char → List Char → Bool
| [], [] => false
| [], _ :: _ => true
| _ :: _, [] => false
| a :: as, b :: bs =>
    if a.toNat < b.toNat then true
    else if b.toNat < a.toNat then false
    else charListLt as bs

/-- Lexicographic code-point order on strings (Python `<` on `str`). -/
def strLt (a b : String) : Bool := charListLt a.data b.data

/-- Insert into a descending-sorted list (helper for
`sorted(..., reverse=True)`).  Filenames in a directory are distinct, so
placement among equal keys is immaterial. -/
def insertDesc (x : String × FileContent) : Store → Store
| [] => [x]
| y :: ys => if strLt y.1 x.1 then x :: y :: ys else y :: insertDesc x ys

/-- `sorted(ARTICLES_DIR.glob("*.json"), reverse=True)`: filenames in
descending lexicographic order. -/
def sortDesc : Store → Store
| [] => []
| x :: xs => insertDesc x (sortDesc xs)

/-- The collection loop of `get_articles`: skip corrupt files, keep records
matching the status filter, and break once `len(articles) >= limit` — the
check runs only after an append. -/
def scanList (status : String) (limit : Int) : Store → List Article → List Article
| [], acc => acc
| (_, FileContent.corrupt) :: rest, acc => scanList status limit rest acc
| (_, FileContent.ok a) :: rest, acc =>
    if statusMatches status a then
      if (acc.length + 1 : Int) ≥ limit then acc ++ [a]
      else scanList status limit rest (acc ++ [a])
    else scanList status limit rest acc

/-- `articles_server.get_articles`, at the level of the records collected
(the human-readable rendering of the list is not modelled; the claims are
about the returned records). -/
def get_articles (status : String) (limit : Int) (st : Store) : List Article :=
  scanList status limit (sortDesc st) []

/-- Result of `get_article`: the found record (returned as JSON text by the
Python code) or the not-found sentinel message. -/
inductive GetResult where
| record (a : Article)
| notFound (msg : String)
deriving DecidableEq, Repr

/-- The not-found sentinel `f"Article not found: {slug}"`. -/
def notFoundMsg (slug : String) : String := "Article not found: " ++ slug

/-- `articles_server.get_article`: linear scan in glob order, first record
whose `slug` field equals the query; corrupt files are skipped. -/
def get_article (slug : String) : Store → GetResult
| [] => .notFound (notFoundMsg slug)
| (_, FileContent.corrupt) :: rest => get_article slug rest
| (_, FileContent.ok a) :: rest =>
    if a.slug == slug then .record a else get_article slug rest

/-- ASCII apostrophe, for building the update confirmation message. -/
def apos : String := (Char.ofNat 39).toString

/-- The confirmation message of `update_article_status`. -/
def updateMsg (slug status : String) : String :=
  "Article " ++ apos ++ slug ++ apos ++ " status updated to: " ++ status

/-- The in-place mutation `update_article_status` applies to the matched
record: set `status`; set `publishedAt` to the current time only when the
new status is `"published"` and `publishedAt` is falsy. -/
def updatedRecord (a : Article) (status now : String) : Article :=
  { a with
    status := status
    publishedAt :=
      if status == "published" && !(isTruthy a.publishedAt) then some now
      else a.publishedAt }

/-- `articles_server.update_article_status`: scan in glob order, rewrite the
first matching file in full, skip corrupt files; returns the new store and
the message. -/
def update_article_status (slug status now : String) : Store → Store × String
| [] => ([], notFoundMsg slug)
| (n, FileContent.corrupt) :: rest =>
    let r := update_article_status slug status now rest
    ((n, FileContent.corrupt) :: r.1, r.2)
| (n, FileContent.ok a) :: rest =>
    if a.slug == slug then
      ((n, FileContent.ok (updatedRecord a status now)) :: rest,
       updateMsg slug status)
    else
      let r := update_article_status slug status now rest
      ((n, FileContent.ok a) :: r.1, r.2)

/-- `articles_server.delete_article`: scan in glob order, unlink the first
matching file, skip corrupt files; returns the new store and the message. -/
def delete_article (slug : String) : Store → Store × String
| [] => ([], notFoundMsg slug)
| (n, FileContent.corrupt) :: rest =>
    let r := delete_article slug rest
    ((n, FileContent.corrupt) :: r.1, r.2)
| (n, FileContent.ok a) :: rest =>
    if a.slug == slug then (rest, "Article deleted: " ++ slug)
    else
      let r := delete_article slug rest
      ((n, FileContent.ok a) :: r.1, r.2)

/-- Does a stored file hold a record with the given slug? -/
def hasSlug (slug : String) (e : String × FileContent) : Bool :=
  match e.2 with
  | .ok a => a.slug == slug
  | .corrupt => false

/-- Is a stored file corrupt? -/
def isCorrupt (e : String × FileContent) : Bool :=
  match e.2 with
  | .ok _ => false
  | .corrupt => true

/-- The parseable records of a store, in store order. -/
def validArticles : Store → List Article :=
  List.filterMap (fun e => match e.2 with | .ok a => some a | .corrupt => none)

/-- Apply a sequence of `update_article_status` calls (status, time) for one
slug, left to right. -/
def applyUpdates (slug : String) (upds : List (String × String)) (st : Store) : Store :=
  upds.foldl (fun s p => (update_article_status slug p.1 p.2 s).1) st

/-! ### Character-level helper lemmas -/

theorem toNat_ofNat_valid (n : Nat) (h : n.isValidChar) : (Char.ofNat n).toNat = n := by
  rw [Char.ofNat, dif_pos h]
  have hlt : n < UInt32.size := Char.isValidUInt32 n h
  simp [Char.ofNatAux, Char.toNat, UInt32.toNat, UInt32.ofNat', BitVec.toNat_ofNatLt]

theorem lower_idem (c : Char) : c.toLower.toLower = c.toLower := by
  unfold Char.toLower
  by_cases h : c.toNat ≥ 65 ∧ c.toNat ≤ 90
  · rw [if_pos h]
    have hv : (Char.ofNat (c.toNat + 32)).toNat = c.toNat + 32 := by
      apply toNat_ofNat_valid
      left
      omega
    rw [if_neg]
    omega
  · rw [if_neg h, if_neg h]

theorem ule_toNat (a b : UInt32) : a ≤ b ↔ a.toNat ≤ b.toNat := by
  simp [UInt32.le_def, BitVec.le_def, UInt32.toNat]

theorem ult_toNat (a b : UInt32) : a < b ↔ a.toNat < b.toNat := by
  simp [UInt32.lt_def, BitVec.lt_def, UInt32.toNat]

theorem lower_of_not_word {d : Char} (h : isWordChar d = false) : d.toLower = d := by
  unfold Char.toLower
  rw [if_neg]
  rintro ⟨h1, h2⟩
  simp [isWordChar, Char.isAlpha, Char.isUpper, Char.isLower, Char.isDigit] at h
  have e1 : (65 : UInt32) ≤ d.val := by
    rw [ule_toNat]
    simpa [Char.toNat] using h1
  have e3 : (90 : UInt32) < d.val := h.1.1.1 e1
  have e4 : (90 : UInt32).toNat < d.val.toNat := (ult_toNat _ _).mp e3
  have e5 : Char.toNat d = d.val.toNat := rfl
  have e6 : (90 : UInt32).toNat = 90 := by decide
  omega

/-! ### Membership lemmas for the slugify stages -/

theorem mem_collapseWs {c : Char} {l : List Char} (h : c ∈ collapseWs l) :
    c = '-' ∨ (c ∈ l ∧ isPySpace c = false) := by
  induction l using collapseWs.induct with
  | case1 => simp [collapseWs] at h
  | case2 d hd =>
      rw [collapseWs, if_pos hd] at h
      simp at h
      left
      exact h
  | case3 d hd =>
      rw [collapseWs, if_neg hd] at h
      simp at h
      subst h
      right
      exact ⟨List.mem_singleton.mpr rfl, by simpa using hd⟩
  | case4 a b rest hab ih =>
      rw [collapseWs, if_pos hab] at h
      rcases ih h with h1 | ⟨h2, h3⟩
      · left; exact h1
      · right; exact ⟨List.mem_cons_of_mem a h2, h3⟩
  | case5 a b rest hab ih =>
      rw [collapseWs, if_neg hab] at h
      rcases List.mem_cons.mp h with h1 | h1
      · by_cases ha : isPySpace a
        · left; simpa [ha] using h1
        · right
          rw [if_neg ha] at h1
          subst h1
          exact ⟨List.mem_cons_self _ _, by simpa using ha⟩
      · rcases ih h1 with h2 | ⟨h2, h3⟩
        · left; exact h2
        · right; exact ⟨List.mem_cons_of_mem a h2, h3⟩

theorem mem_collapseHy {c : Char} {l : List Char} (h : c ∈ collapseHy l) : c ∈ l := by
  induction l using collapseHy.induct with
  | case1 => simp [collapseHy] at h
  | case2 d => simpa [collapseHy] using h
  | case3 a b rest hab ih =>
      rw [collapseHy, if_pos hab] at h
      exact List.mem_cons_of_mem a (ih h)
  | case4 a b rest hab ih =>
      rw [collapseHy, if_neg hab] at h
      rcases List.mem_cons.mp h with h1 | h1
      · subst h1; exact List.mem_cons_self _ _
      · exact List.mem_cons_of_mem a (ih h1)

theorem mem_dropWhile {c : Char} {p : Char → Bool} {l : List Char}
    (h : c ∈ l.dropWhile p) : c ∈ l := by
  induction l with
  | nil => simp at h
  | cons a rest ih =>
      rw [List.dropWhile_cons] at h
      split at h
      · exact List.mem_cons_of_mem a (ih h)
      · exact h

theorem mem_stripHy {c : Char} {l : List Char} (h : c ∈ stripHy l) : c ∈ l := by
  unfold stripHy at h
  rw [List.mem_reverse] at h
  have h1 := mem_dropWhile h
  rw [List.mem_reverse] at h1
  exact mem_dropWhile h1

/-! ### dropWhile and Chain' helper lemmas -/

theorem head_dropWhile (p : Char → Bool) {l : List Char} {c : Char}
    (h : (l.dropWhile p).head? = some c) : p c = false := by
  induction l with
  | nil => simp at h
  | cons a rest ih =>
      rw [List.dropWhile_cons] at h
      split at h
      · exact ih h
      · next hp =>
          simp at h
          subst h
          simpa using hp

theorem dropWhile_eq_self_of_head {p : Char → Bool} {l : List Char}
    (h : ∀ c, l.head? = some c → p c = false) : l.dropWhile p = l := by
  cases l with
  | nil => rfl
  | cons a rest =>
      rw [List.dropWhile_cons, if_neg]
      simp [h a rfl]

theorem getLast_dropWhile_ne_nil {p : Char → Bool} {l : List Char}
    (h : l.dropWhile p ≠ []) : (l.dropWhile p).getLast? = l.getLast? := by
  induction l with
  | nil => simp at h
  | cons a rest ih =>
      rw [List.dropWhile_cons]
      split
      · next hp =>
          rw [List.dropWhile_cons, if_pos hp] at h
          rw [ih h]
          have hr : rest ≠ [] := by
            intro he
            subst he
            simp at h
          cases rest with
          | nil => exact absurd rfl hr
          | cons b rs => rw [List.getLast?_cons_cons]
      · rfl

/-- No two adjacent hyphens, as a chain relation. -/
def NeHy (a b : Char) : Prop := ¬(a = '-' ∧ b = '-')

theorem chain_dropWhile {R : Char → Char → Prop} {p : Char → Bool} {l : List Char}
    (h : l.Chain' R) : (l.dropWhile p).Chain' R := by
  induction l with
  | nil => simp
  | cons a rest ih =>
      rw [List.dropWhile_cons]
      split
      · exact ih h.tail
      · exact h

theorem chain_reverse_of_symm {R : Char → Char → Prop}
    (hs : ∀ a b, R a b → R b a) {l : List Char} (h : l.Chain' R) :
    l.reverse.Chain' R := by
  rw [List.chain'_reverse]
  exact h.imp (fun a b hab => hs a b hab)

theorem head_collapseHy_ne {b : Char} {rest : List Char} (hb : (b == '-') = false) :
    (collapseHy (b :: rest)).head? = some b := by
  cases rest with
  | nil => rfl
  | cons c rs =>
      rw [collapseHy, if_neg]
      · rfl
      · simp [hb]

theorem chain_collapseHy (l : List Char) : (collapseHy l).Chain' NeHy := by
  induction l using collapseHy.induct with
  | case1 => simp [collapseHy]
  | case2 c => simp [collapseHy]
  | case3 a b rest hab ih =>
      rw [collapseHy, if_pos hab]
      exact ih
  | case4 a b rest hab ih =>
      rw [collapseHy, if_neg hab]
      rw [List.chain'_cons']
      refine ⟨?_, ih⟩
      intro y hy
      by_cases ha : a = '-'
      · subst ha
        have hb : (b == '-') = false := by
          by_contra hbc
          simp at hbc
          simp [hbc] at hab
        rw [head_collapseHy_ne hb] at hy
        simp at hy
        subst hy
        intro hcon
        simp [hcon.2] at hb
      · intro hcon
        exact ha hcon.1

theorem collapseHy_eq_self {l : List Char} (h : l.Chain' NeHy) : collapseHy l = l := by
  induction l using collapseHy.induct with
  | case1 => rfl
  | case2 c => rfl
  | case3 a b rest hab ih =>
      exfalso
      have hr := (List.chain'_cons.mp h).1
      simp at hab
      exact hr ⟨hab.1, hab.2⟩
  | case4 a b rest hab ih =>
      rw [collapseHy, if_neg hab, ih (List.chain'_cons.mp h).2]

theorem collapseWs_eq_self {l : List Char} (h : ∀ c ∈ l, isPySpace c = false) :
    collapseWs l = l := by
  induction l using collapseWs.induct with
  | case1 => rfl
  | case2 c hc => simp [h c (List.mem_singleton.mpr rfl)] at hc
  | case3 c hc => rw [collapseWs, if_neg hc]
  | case4 a b rest hab ih =>
      exfalso
      have := h a (List.mem_cons_self _ _)
      simp [this] at hab
  | case5 a b rest hab ih =>
      rw [collapseWs, if_neg hab]
      have ha := h a (List.mem_cons_self _ _)
      rw [if_neg (by simp [ha])]
      rw [ih (fun c hc => h c (List.mem_cons_of_mem a hc))]

theorem stripHy_eq_self {l : List Char}
    (h1 : ∀ c, l.head? = some c → (c == '-') = false)
    (h2 : ∀ c, l.getLast? = some c → (c == '-') = false) : stripHy l = l := by
  unfold stripHy
  rw [dropWhile_eq_self_of_head h1]
  rw [dropWhile_eq_self_of_head ?_]
  · exact List.reverse_reverse l
  · intro c hc
    rw [List.head?_reverse] at hc
    exact h2 c hc

/-! ### Characterization of slugify output and idempotence -/

theorem slug_chars {c : Char} {l : List Char} (h : c ∈ slugifyL l) :
    c.toLower = c ∧ keepChar c = true ∧ isPySpace c = false := by
  have h1 := mem_collapseHy (mem_stripHy h)
  rcases mem_collapseWs h1 with hc | ⟨hm, hs⟩
  · subst hc
    refine ⟨by decide, by decide, by decide⟩
  · have hk : keepChar c = true := (List.mem_filter.mp hm).2
    have hmm : c ∈ l.map Char.toLower := (List.mem_filter.mp hm).1
    rcases List.mem_map.mp hmm with ⟨d, _, hd⟩
    refine ⟨?_, hk, hs⟩
    rw [← hd]
    exact lower_idem d

theorem map_lower_eq_self {l : List Char} (h : ∀ c ∈ l, c.toLower = c) :
    l.map Char.toLower = l := by
  induction l with
  | nil => rfl
  | cons a rest ih =>
      rw [List.map_cons, h a (List.mem_cons_self _ _),
        ih (fun c hc => h c (List.mem_cons_of_mem a hc))]

theorem chain_stripHy {l : List Char} (h : l.Chain' NeHy) : (stripHy l).Chain' NeHy := by
  unfold stripHy
  have hsymm : ∀ a b, NeHy a b → NeHy b a := by
    intro a b hab hcon
    exact hab ⟨hcon.2, hcon.1⟩
  exact chain_reverse_of_symm hsymm (chain_dropWhile (chain_reverse_of_symm hsymm (chain_dropWhile h)))

theorem chain_slug (l : List Char) : (slugifyL l).Chain' NeHy :=
  chain_stripHy (chain_collapseHy _)

theorem stripHy_head {l : List Char} {c : Char}
    (h : (stripHy l).head? = some c) : (c == '-') = false := by
  unfold stripHy at h
  rw [List.head?_reverse] at h
  have hne : (l.dropWhile (fun c => c == '-')).reverse.dropWhile (fun c => c == '-') ≠ [] := by
    intro he
    rw [he] at h
    simp at h
  rw [getLast_dropWhile_ne_nil hne, List.getLast?_reverse] at h
  exact head_dropWhile (fun x => x == '-') h

theorem stripHy_last {l : List Char} {c : Char}
    (h : (stripHy l).getLast? = some c) : (c == '-') = false := by
  unfold stripHy at h
  rw [List.getLast?_reverse] at h
  exact head_dropWhile (fun x => x == '-') h

theorem slugifyL_idem (l : List Char) : slugifyL (slugifyL l) = slugifyL l := by
  have hchars : ∀ c ∈ slugifyL l, c.toLower = c ∧ keepChar c = true ∧ isPySpace c = false :=
    fun c h => slug_chars h
  have hmap : (slugifyL l).map Char.toLower = slugifyL l :=
    map_lower_eq_self (fun c h => (hchars c h).1)
  have hfil : (slugifyL l).filter keepChar = slugifyL l :=
    List.filter_eq_self.mpr (fun c h => (hchars c h).2.1)
  have hws : collapseWs (slugifyL l) = slugifyL l :=
    collapseWs_eq_self (fun c h => (hchars c h).2.2)
  have hhy : collapseHy (slugifyL l) = slugifyL l :=
    collapseHy_eq_self (chain_slug l)
  have hst : stripHy (slugifyL l) = slugifyL l := by
    apply stripHy_eq_self
    · intro c hc
      exact stripHy_head hc
    · intro c hc
      exact stripHy_last hc
  calc slugifyL (slugifyL l)
      = stripHy (collapseHy (collapseWs (((slugifyL l).map Char.toLower).filter keepChar))) := rfl
    _ = slugifyL l := by rw [hmap, hfil, hws, hhy, hst]

theorem slugifyL_nil_of_no_word {l : List Char} (h : ∀ c ∈ l, isWordChar c = false) :
    slugifyL l = [] := by
  have hall : ∀ c ∈ collapseHy (collapseWs ((l.map Char.toLower).filter keepChar)),
      (c == '-') = true := by
    intro c hc
    rcases mem_collapseWs (mem_collapseHy hc) with h1 | ⟨h2, h3⟩
    · simp [h1]
    · have hk := (List.mem_filter.mp h2).2
      rcases List.mem_map.mp (List.mem_filter.mp h2).1 with ⟨d, hd, he⟩
      have hw : isWordChar c = false := by
        rw [← he, lower_of_not_word (h d hd)]
        exact h d hd
      simpa [keepChar, hw, h3] using hk
  unfold slugifyL stripHy
  rw [List.dropWhile_eq_nil_iff.mpr (fun c hc => hall c hc)]
  rfl

/-- C8: `slugify` equals the reference definition from the spec (lowercase,
strip characters that are neither word characters, whitespace, nor hyphen,
collapse whitespace runs to a single hyphen, collapse hyphen runs to one,
trim edge hyphens); in particular `slugify "Best Gin & Tonic!!"` is
`"best-gin-tonic"`, and an input with no retainable (word) characters
yields the empty string. -/
theorem c8_slugify_matches_reference :
    (∀ s : String, slugify s = slugifySpec s)
    ∧ slugify "Best Gin & Tonic!!" = "best-gin-tonic"
    ∧ (∀ s : String, (∀ c ∈ s.data, isWordChar c = false) → slugify s = "") := by
  refine ⟨?_, by decide, ?_⟩
  · intro s
    have hp : ∀ c, keepChar c = keepCharSpec c := by
      intro c
      cases hw : isWordChar c <;> cases hs : isPySpace c <;> cases hh : c == '-' <;>
        simp [keepChar, keepCharSpec, hw, hs, hh]
    apply congrArg String.mk
    unfold slugifyL
    apply congrArg stripHy
    apply congrArg collapseHy
    apply congrArg collapseWs
    exact List.filter_congr (fun c _ => hp c)
  · intro s h
    show (⟨slugifyL s.data⟩ : String) = ""
    rw [slugifyL_nil_of_no_word h]

/-- Witness for C8: the all-punctuation input `"!!!"` has no retainable
characters and slugifies to the empty string. -/
theorem c8_witness :
    (∀ c ∈ ("!!!" : String).data, isWordChar c = false) ∧ slugify "!!!" = "" :=
  ⟨by decide, c8_slugify_matches_reference.2.2 "!!!" (by decide)⟩

/-- C9: `slugify` is idempotent: `slugify (slugify x) = slugify x` for every
input string `x`. -/
theorem c9_slugify_idempotent (x : String) : slugify (slugify x) = slugify x := by
  show (⟨slugifyL (slugifyL x.data)⟩ : String) = ⟨slugifyL x.data⟩
  exact congrArg String.mk (slugifyL_idem x.data)

/-! ### Store-level helper lemmas -/

theorem validArticles_cons_ok (n : String) (b : Article) (rest : Store) :
    validArticles ((n, FileContent.ok b) :: rest) = b :: validArticles rest := rfl

theorem validArticles_cons_corrupt (n : String) (rest : Store) :
    validArticles ((n, FileContent.corrupt) :: rest) = validArticles rest := rfl

theorem scanList_length_le {status : String} {limit : Int} :
    ∀ (files : Store) (acc : List Article), (acc.length : Int) < limit →
      ((scanList status limit files acc).length : Int) ≤ limit := by
  intro files
  induction files with
  | nil =>
      intro acc h
      simpa [scanList] using le_of_lt h
  | cons e rest ih =>
      intro acc h
      obtain ⟨n, c⟩ := e
      cases c with
      | corrupt =>
          rw [scanList]
          exact ih acc h
      | ok a =>
          rw [scanList]
          by_cases hm : statusMatches status a
          · rw [if_pos hm]
            by_cases hb : ((acc.length : Int) + 1 ≥ limit)
            · rw [if_pos hb]
              simp only [List.length_append, List.length_singleton]
              push_cast
              omega
            · rw [if_neg hb]
              apply ih
              simp only [List.length_append, List.length_singleton]
              push_cast
              omega
          · rw [if_neg hm]
            exact ih acc h

theorem scanList_length_le_succ {status : String} {limit : Int} :
    ∀ (files : Store) (acc : List Article), limit ≤ (acc.length : Int) →
      (scanList status limit files acc).length ≤ acc.length + 1 := by
  intro files
  induction files with
  | nil =>
      intro acc h
      simp [scanList]
  | cons e rest ih =>
      intro acc h
      obtain ⟨n, c⟩ := e
      cases c with
      | corrupt =>
          rw [scanList]
          exact ih acc h
      | ok a =>
          rw [scanList]
          by_cases hm : statusMatches status a
          · rw [if_pos hm, if_pos (by omega)]
            simp
          · rw [if_neg hm]
            exact ih acc h

theorem mem_scanList {status : String} {limit : Int} :
    ∀ {files : Store} {acc : List Article} {a : Article},
      a ∈ scanList status limit files acc →
      a ∈ acc ∨ (statusMatches status a = true ∧ a ∈ validArticles files) := by
  intro files
  induction files with
  | nil =>
      intro acc a h
      rw [scanList] at h
      exact Or.inl h
  | cons e rest ih =>
      intro acc a h
      obtain ⟨n, c⟩ := e
      cases c with
      | corrupt =>
          rw [scanList] at h
          rcases ih h with h1 | ⟨h1, h2⟩
          · exact Or.inl h1
          · exact Or.inr ⟨h1, by rw [validArticles_cons_corrupt]; exact h2⟩
      | ok b =>
          rw [scanList] at h
          by_cases hm : statusMatches status b
          · rw [if_pos hm] at h
            by_cases hb : ((acc.length : Int) + 1 ≥ limit)
            · rw [if_pos hb] at h
              rcases List.mem_append.mp h with h1 | h1
              · exact Or.inl h1
              · have : a = b := by simpa using h1
                subst this
                exact Or.inr ⟨hm, by rw [validArticles_cons_ok]; exact List.mem_cons_self _ _⟩
            · rw [if_neg hb] at h
              rcases ih h with h1 | ⟨h1, h2⟩
              · rcases List.mem_append.mp h1 with h3 | h3
                · exact Or.inl h3
                · have : a = b := by simpa using h3
                  subst this
                  exact Or.inr ⟨hm, by rw [validArticles_cons_ok]; exact List.mem_cons_self _ _⟩
              · exact Or.inr ⟨h1, by rw [validArticles_cons_ok]; exact List.mem_cons_of_mem b h2⟩
          · rw [if_neg hm] at h
            rcases ih h with h1 | ⟨h1, h2⟩
            · exact Or.inl h1
            · exact Or.inr ⟨h1, by rw [validArticles_cons_ok]; exact List.mem_cons_of_mem b h2⟩

theorem perm_insertDesc (x : String × FileContent) :
    ∀ l : Store, (insertDesc x l).Perm (x :: l) := by
  intro l
  induction l with
  | nil => rfl
  | cons y ys ih =>
      rw [insertDesc]
      by_cases h : strLt y.1 x.1
      · rw [if_pos h]
      · rw [if_neg h]
        exact (ih.cons y).trans (List.Perm.swap x y ys)

theorem perm_sortDesc : ∀ l : Store, (sortDesc l).Perm l := by
  intro l
  induction l with
  | nil => rfl
  | cons x xs ih =>
      rw [sortDesc]
      exact (perm_insertDesc x (sortDesc xs)).trans (ih.cons x)

theorem validArticles_sortDesc_perm (st : Store) :
    (validArticles (sortDesc st)).Perm (validArticles st) :=
  (perm_sortDesc st).filterMap _

theorem validArticles_length_add :
    ∀ st : Store, (validArticles st).length + (st.filter isCorrupt).length = st.length := by
  intro st
  induction st with
  | nil => rfl
  | cons e rest ih =>
      obtain ⟨n, c⟩ := e
      cases c with
      | ok a =>
          rw [validArticles_cons_ok]
          simp only [List.filter_cons]
          rw [if_neg (by simp [isCorrupt])]
          simp only [List.length_cons]
          omega
      | corrupt =>
          rw [validArticles_cons_corrupt]
          simp only [List.filter_cons]
          rw [if_pos (by simp [isCorrupt])]
          simp only [List.length_cons]
          omega

theorem scanList_all_of_le {limit : Int} :
    ∀ (files : Store) (acc : List Article),
      ((acc.length : Int) + (validArticles files).length ≤ limit) →
      scanList "all" limit files acc = acc ++ validArticles files := by
  intro files
  induction files with
  | nil =>
      intro acc h
      simp [scanList, validArticles]
  | cons e rest ih =>
      intro acc h
      obtain ⟨n, c⟩ := e
      cases c with
      | corrupt =>
          rw [scanList, validArticles_cons_corrupt]
          rw [validArticles_cons_corrupt] at h
          exact ih acc h
      | ok a =>
          rw [scanList, validArticles_cons_ok]
          rw [validArticles_cons_ok] at h
          rw [if_pos (by simp [statusMatches])]
          simp only [List.length_cons] at h
          by_cases hb : ((acc.length : Int) + 1 ≥ limit)
          · rw [if_pos hb]
            have hz : (validArticles rest).length = 0 := by push_cast at h; omega
            rw [List.length_eq_zero.mp hz]
          · rw [if_neg hb]
            rw [ih (acc ++ [a]) (by simp; push_cast at h; omega)]
            simp

/-! ### Sample data for witnesses and counterexamples -/

/-- A sample published article with a truthy `publishedAt`. -/
def artPub : Article :=
  { id := "best-gin-20240101120000", slug := "best-gin", title := "Best Gin",
    metaDescription := "md", content := "body", primaryKeyword := "gin",
    secondaryKeywords := ["tonic"], imageUrl := "http://img",
    imageAlt := "Best Gin - Premium Gin and Tonic Guide", schemaMarkup := [],
    status := "published", createdAt := "2024-01-01T12:00:00",
    publishedAt := some "2024-01-01T12:00:00" }

/-- A second article with the same slug as `artPub` (duplicate slugs are
possible: slugs are not forced unique by the store). -/
def artPub2 : Article := { artPub with id := "best-gin-20240102120000" }

/-- A sample draft article. -/
def artDraft : Article :=
  { artPub with
    id := "draft-gin-20240101120000"
    slug := "draft-gin"
    status := "draft"
    publishedAt := none }

/-- C1 (amended): `get_articles s N` returns at most `max N 1` records — at
most `N` whenever `N ≥ 1`, but when `N ≤ 0` one record can still be
returned because the code checks `len(articles) >= limit` only after
appending a match; the `"all"` filter accepts every record; with filter
`"draft"` every returned record has status `"draft"`. -/
theorem c1_get_articles_limit :
    (∀ (status : String) (limit : Int) (st : Store),
        ((get_articles status limit st).length : Int) ≤ max limit 1)
    ∧ (∀ a : Article, statusMatches "all" a = true)
    ∧ (∀ (limit : Int) (st : Store) (a : Article),
        a ∈ get_articles "draft" limit st → a.status = "draft") := by
  refine ⟨?_, ?_, ?_⟩
  · intro status limit st
    unfold get_articles
    by_cases h1 : (1 : Int) ≤ limit
    · have := @scanList_length_le status limit (sortDesc st) []
      simp only [List.length_nil, Int.natCast_zero] at this
      have h2 := this (by omega)
      omega
    · have := @scanList_length_le_succ status limit (sortDesc st) []
      simp only [List.length_nil, Int.natCast_zero] at this
      have h2 := this (by omega)
      have h3 : (scanList status limit (sortDesc st) []).length ≤ 1 := by omega
      omega
  · intro a
    simp [statusMatches]
  · intro limit st a h
    unfold get_articles at h
    rcases mem_scanList h with h1 | ⟨h1, _⟩
    · simp at h1
    · have hne : ("draft" == "all") = false := by decide
      simp only [statusMatches, hne, Bool.false_or] at h1
      exact eq_of_beq h1

/-- C1 counterexample: with `N = 0` and a store holding one matching
article, `get_articles "all" 0` returns one record, not zero — the limit
check happens only after the first append. -/
theorem c1_counterexample :
    (get_articles "all" 0 [("a.json", FileContent.ok artPub)]).length = 1
    ∧ ¬ (((get_articles "all" 0 [("a.json", FileContent.ok artPub)]).length : Int) ≤ 0) := by
  refine ⟨by decide, by decide⟩

/-- Witness for C1 (amended): a concrete draft-filtered listing only
returns draft records. -/
theorem c1_witness : artDraft.status = "draft" :=
  c1_get_articles_limit.2.2 10 [("d.json", FileContent.ok artDraft)] artDraft (by decide)

/-- C5: listing with a corrupt file present: with exactly one unparseable
file among ten valid records, `get_articles "all" 10` returns exactly the
ten valid records (in sorted order) and no fault arises (all operations are
total functions of the store); more generally `get_article` gives the same
result on a store and on that store with its corrupt files removed. -/
theorem c5_corrupt_resilience :
    (∀ st : Store, st.length = 11 → (st.filter isCorrupt).length = 1 →
        get_articles "all" 10 st = validArticles (sortDesc st)
        ∧ (get_articles "all" 10 st).length = 10)
    ∧ (∀ (slug : String) (st : Store),
        get_article slug st = get_article slug (st.filter (fun e => !isCorrupt e))) := by
  constructor
  · intro st h11 h1
    have hcount := validArticles_length_add st
    have hlen : (validArticles st).length = 10 := by omega
    have hperm := validArticles_sortDesc_perm st
    have hlen2 : (validArticles (sortDesc st)).length = 10 := by
      rw [hperm.length_eq, hlen]
    have := @scanList_all_of_le 10 (sortDesc st) []
    simp only [List.length_nil, Int.natCast_zero, zero_add] at this
    have heq : get_articles "all" 10 st = validArticles (sortDesc st) := by
      unfold get_articles
      rw [this (by rw [hlen2]; norm_num)]
      simp
    exact ⟨heq, by rw [heq, hlen2]⟩
  · intro slug st
    induction st with
    | nil => rfl
    | cons e rest ih =>
        obtain ⟨n, c⟩ := e
        cases c with
        | corrupt =>
            rw [List.filter_cons, if_neg (by simp [isCorrupt])]
            rw [get_article]
            exact ih
        | ok a =>
            rw [List.filter_cons, if_pos (by simp [isCorrupt])]
            rw [get_article, get_article]
            by_cases hm : (a.slug == slug)
            · rw [if_pos hm, if_pos hm]
            · rw [if_neg hm, if_neg hm]
              exact ih

/-- Articles for the C5 witness store. -/
def sampleArt (i : Nat) : Article :=
  { artPub with id := "s" ++ toString i, slug := "slug" ++ toString i }

/-- A store of ten valid records and one corrupt file. -/
def store11 : Store :=
  [("f0.json", FileContent.ok (sampleArt 0)), ("f1.json", FileContent.ok (sampleArt 1)),
   ("f2.json", FileContent.ok (sampleArt 2)), ("f3.json", FileContent.ok (sampleArt 3)),
   ("f4.json", FileContent.ok (sampleArt 4)), ("bad.json", FileContent.corrupt),
   ("f5.json", FileContent.ok (sampleArt 5)), ("f6.json", FileContent.ok (sampleArt 6)),
   ("f7.json", FileContent.ok (sampleArt 7)), ("f8.json", FileContent.ok (sampleArt 8)),
   ("f9.json", FileContent.ok (sampleArt 9))]

/-- Witness for C5 at a concrete store of ten valid records and one
corrupt file. -/
theorem c5_witness :
    get_articles "all" 10 store11 = validArticles (sortDesc store11)
    ∧ (get_articles "all" 10 store11).length = 10 :=
  c5_corrupt_resilience.1 store11 (by decide) (by decide)

/-! ### Not-found and first-match lemmas -/

theorem get_article_no_match {slug : String} :
    ∀ {st : Store}, (∀ e ∈ st, hasSlug slug e = false) →
      get_article slug st = .notFound (notFoundMsg slug) := by
  intro st
  induction st with
  | nil => intro _; rfl
  | cons e rest ih =>
      intro h
      obtain ⟨n, c⟩ := e
      cases c with
      | corrupt =>
          rw [get_article]
          exact ih (fun e he => h e (List.mem_cons_of_mem _ he))
      | ok a =>
          rw [get_article]
          have ha : (a.slug == slug) = false := by
            simpa [hasSlug] using h (n, FileContent.ok a) (List.mem_cons_self _ _)
          rw [if_neg (by simp [ha])]
          exact ih (fun e he => h e (List.mem_cons_of_mem _ he))

theorem update_no_match {slug status now : String} :
    ∀ {st : Store}, (∀ e ∈ st, hasSlug slug e = false) →
      update_article_status slug status now st = (st, notFoundMsg slug) := by
  intro st
  induction st with
  | nil => intro _; rfl
  | cons e rest ih =>
      intro h
      obtain ⟨n, c⟩ := e
      cases c with
      | corrupt =>
          rw [update_article_status]
          rw [ih (fun e he => h e (List.mem_cons_of_mem _ he))]
      | ok a =>
          rw [update_article_status]
          have ha : (a.slug == slug) = false := by
            simpa [hasSlug] using h (n, FileContent.ok a) (List.mem_cons_self _ _)
          rw [if_neg (by simp [ha])]
          rw [ih (fun e he => h e (List.mem_cons_of_mem _ he))]

theorem delete_no_match {slug : String} :
    ∀ {st : Store}, (∀ e ∈ st, hasSlug slug e = false) →
      delete_article slug st = (st, notFoundMsg slug) := by
  intro st
  induction st with
  | nil => intro _; rfl
  | cons e rest ih =>
      intro h
      obtain ⟨n, c⟩ := e
      cases c with
      | corrupt =>
          rw [delete_article]
          rw [ih (fun e he => h e (List.mem_cons_of_mem _ he))]
      | ok a =>
          rw [delete_article]
          have ha : (a.slug == slug) = false := by
            simpa [hasSlug] using h (n, FileContent.ok a) (List.mem_cons_self _ _)
          rw [if_neg (by simp [ha])]
          rw [ih (fun e he => h e (List.mem_cons_of_mem _ he))]

/-- C6: on a slug matching no stored record, `get_article`,
`update_article_status` and `delete_article` each return the not-found
sentinel message as a normal result (the operations are total functions:
no exception is modelled or needed), and the store is unchanged. -/
theorem c6_not_found_sentinel (st : Store) (slug status now : String)
    (h : ∀ e ∈ st, hasSlug slug e = false) :
    get_article slug st = .notFound ("Article not found: " ++ slug)
    ∧ update_article_status slug status now st = (st, "Article not found: " ++ slug)
    ∧ delete_article slug st = (st, "Article not found: " ++ slug) :=
  ⟨get_article_no_match h, update_no_match h, delete_no_match h⟩

/-- Witness for C6 at a concrete store and missing slug. -/
theorem c6_witness :
    get_article "missing" [("a.json", FileContent.ok artPub)]
        = .notFound ("Article not found: missing")
    ∧ update_article_status "missing" "draft" "T1" [("a.json", FileContent.ok artPub)]
        = ([("a.json", FileContent.ok artPub)], "Article not found: missing")
    ∧ delete_article "missing" [("a.json", FileContent.ok artPub)]
        = ([("a.json", FileContent.ok artPub)], "Article not found: missing") :=
  c6_not_found_sentinel [("a.json", FileContent.ok artPub)] "missing" "draft" "T1" (by decide)

theorem get_after_update {slug status now : String} :
    ∀ {st : Store} {a : Article}, get_article slug st = .record a →
      get_article slug (update_article_status slug status now st).1
        = .record (updatedRecord a status now) := by
  intro st
  induction st with
  | nil =>
      intro a h
      rw [get_article] at h
      simp at h
  | cons e rest ih =>
      intro a h
      obtain ⟨n, c⟩ := e
      cases c with
      | corrupt =>
          rw [get_article] at h
          rw [update_article_status, get_article]
          exact ih h
      | ok b =>
          rw [get_article] at h
          rw [update_article_status]
          by_cases hb : (b.slug == slug)
          · rw [if_pos hb] at h ⊢
            have hab : b = a := by simpa using h
            subst hab
            rw [get_article]
            have hs : (updatedRecord b status now).slug = b.slug := rfl
            rw [if_pos (by rw [hs]; exact hb)]
          · rw [if_neg hb] at h
            rw [if_neg hb]
            rw [get_article]
            rw [if_neg hb]
            exact ih h

theorem updatedRecord_truthy {a : Article} {status now : String}
    (h : isTruthy a.publishedAt = true) :
    updatedRecord a status now = { a with status := status } := by
  unfold updatedRecord
  rw [h]
  simp

/-- C2: a status update sets `publishedAt` only when transitioning to
`"published"` with `publishedAt` unset (falsy); when `publishedAt` is
already set it is left unchanged by that update and by every later
status update, whatever the new status (including `"draft"`). -/
theorem c2_publishedAt_set_once :
    (∀ (st : Store) (slug status now : String) (a : Article),
        get_article slug st = .record a → isTruthy a.publishedAt = true →
        get_article slug (update_article_status slug status now st).1
          = .record { a with status := status })
    ∧ (∀ (st : Store) (slug now : String) (a : Article),
        get_article slug st = .record a → isTruthy a.publishedAt = false →
        get_article slug (update_article_status slug "published" now st).1
          = .record { a with status := "published", publishedAt := some now })
    ∧ (∀ (st : Store) (slug : String) (upds : List (String × String)) (a b : Article),
        get_article slug st = .record a → isTruthy a.publishedAt = true →
        get_article slug (applyUpdates slug upds st) = .record b →
        b.publishedAt = a.publishedAt) := by
  refine ⟨?_, ?_, ?_⟩
  · intro st slug status now a h ht
    rw [get_after_update h, updatedRecord_truthy ht]
  · intro st slug now a h ht
    rw [get_after_update h]
    unfold updatedRecord
    rw [ht]
    simp
  · intro st slug upds
    induction upds generalizing st with
    | nil =>
        intro a b h ht hb
        rw [show applyUpdates slug [] st = st from rfl] at hb
        rw [h] at hb
        have : a = b := by simpa using hb
        rw [← this]
    | cons u tail ih =>
        intro a b h ht hb
        have hstep : applyUpdates slug (u :: tail) st
            = applyUpdates slug tail (update_article_status slug u.1 u.2 st).1 := rfl
        rw [hstep] at hb
        have h1 : get_article slug (update_article_status slug u.1 u.2 st).1
            = .record { a with status := u.1 } := by
          rw [get_after_update h, updatedRecord_truthy ht]
        have h2 : isTruthy ({ a with status := u.1 } : Article).publishedAt = true := ht
        have h3 := ih _ _ _ h1 h2 hb
        simpa using h3

/-- Witness for C2: updating the published `artPub` to `"draft"` leaves its
`publishedAt` unchanged. -/
theorem c2_witness :
    get_article "best-gin"
        (update_article_status "best-gin" "draft" "2025-06-01T00:00:00"
          [("a.json", FileContent.ok artPub)]).1
      = .record { artPub with status := "draft" } :=
  c2_publishedAt_set_once.1 [("a.json", FileContent.ok artPub)] "best-gin" "draft"
    "2025-06-01T00:00:00" artPub (by decide) (by decide)

/-- C10 (implicit): `update_article_status` validates nothing about the new
status: any string, e.g. `"archived"`, is written verbatim into the stored
record's `status` field, so the status enum of §3 is not enforced by the
store. -/
theorem c10_no_status_validation (st : Store) (slug status now : String) (a : Article)
    (h : get_article slug st = .record a) :
    ∃ b, get_article slug (update_article_status slug status now st).1 = .record b
      ∧ b.status = status :=
  ⟨updatedRecord a status now, get_after_update h, rfl⟩

/-- Witness for C10: the out-of-enum status `"archived"` is stored as-is. -/
theorem c10_witness :
    ∃ b, get_article "best-gin"
        (update_article_status "best-gin" "archived" "T1"
          [("a.json", FileContent.ok artPub)]).1 = .record b
      ∧ b.status = "archived" :=
  c10_no_status_validation [("a.json", FileContent.ok artPub)] "best-gin" "archived" "T1"
    artPub (by decide)

theorem get_writeFile {slug name : String} {a : Article} (ha : a.slug = slug) :
    ∀ {st : Store}, (∀ e ∈ st, hasSlug slug e = false) →
      get_article slug (writeFile st name (FileContent.ok a)) = .record a := by
  intro st
  induction st with
  | nil =>
      intro _
      rw [writeFile, get_article]
      rw [if_pos (by simp [ha])]
  | cons e rest ih =>
      intro h
      obtain ⟨m, d⟩ := e
      rw [writeFile]
      by_cases hm : (m == name)
      · rw [if_pos hm]
        rw [get_article]
        rw [if_pos (by simp [ha])]
      · rw [if_neg hm]
        cases d with
        | corrupt =>
            rw [get_article]
            exact ih (fun e he => h e (List.mem_cons_of_mem _ he))
        | ok b =>
            have hb : (b.slug == slug) = false := by
              simpa [hasSlug] using h (m, FileContent.ok b) (List.mem_cons_self _ _)
            rw [get_article, if_neg (by simp [hb])]
            exact ih (fun e he => h e (List.mem_cons_of_mem _ he))

/-- C3: round-trip — after `save_article`, fetching the returned slug (on a
store that held no record with that slug, per the store's first-match
lookup) yields a record whose caller-supplied fields equal the inputs, and
whose store-assigned fields are present and well-formed: `id` is the slug
plus the creation timestamp, `createdAt` is the creation time, and
`publishedAt` is set. -/
theorem c3_round_trip (title content meta_description primary_keyword : String)
    (secondary_keywords : List String) (image_url : String)
    (schema_markup : Option (List (String × String))) (ts nowIso : String) (st : Store)
    (h : ∀ e ∈ st, hasSlug (slugify title) e = false) :
    ∃ a : Article,
      get_article (slugify title)
          (save_article title content meta_description primary_keyword
            secondary_keywords image_url schema_markup ts nowIso st).1
        = .record a
      ∧ a.title = title ∧ a.metaDescription = meta_description ∧ a.content = content
      ∧ a.primaryKeyword = primary_keyword ∧ a.secondaryKeywords = secondary_keywords
      ∧ a.imageUrl = image_url ∧ a.id = slugify title ++ "-" ++ ts
      ∧ a.createdAt = nowIso ∧ a.publishedAt = some nowIso := by
  refine ⟨mkArticle title content meta_description primary_keyword secondary_keywords
    image_url schema_markup ts nowIso, ?_, rfl, rfl, rfl, rfl, rfl, rfl, rfl, rfl, rfl⟩
  exact get_writeFile (show (mkArticle title content meta_description primary_keyword
    secondary_keywords image_url schema_markup ts nowIso).slug = slugify title from rfl) h

/-- Witness for C3 on the empty store. -/
theorem c3_witness :
    ∃ a : Article,
      get_article (slugify "Best Gin")
          (save_article "Best Gin" "body" "md" "gin" ["tonic"] "http://img" none
            "20240101120000" "2024-01-01T12:00:00" []).1
        = .record a
      ∧ a.title = "Best Gin" ∧ a.metaDescription = "md" ∧ a.content = "body"
      ∧ a.primaryKeyword = "gin" ∧ a.secondaryKeywords = ["tonic"]
      ∧ a.imageUrl = "http://img" ∧ a.id = slugify "Best Gin" ++ "-" ++ "20240101120000"
      ∧ a.createdAt = "2024-01-01T12:00:00" ∧ a.publishedAt = some "2024-01-01T12:00:00" :=
  c3_round_trip "Best Gin" "body" "md" "gin" ["tonic"] "http://img" none
    "20240101120000" "2024-01-01T12:00:00" [] (by decide)

/-- C4: creation postcondition — the record stored by `save_article` has
`slug = slugify title`, `id = slug ++ "-" ++ ts` built from the wall-clock
timestamp `ts` of the creation call, `status = "published"`, and
`publishedAt` equal to `createdAt`; and `slugify "Best Gin" = "best-gin"`. -/
theorem c4_creation_postcondition (title content meta_description primary_keyword : String)
    (secondary_keywords : List String) (image_url : String)
    (schema_markup : Option (List (String × String))) (ts nowIso : String) (st : Store) :
    (mkArticle title content meta_description primary_keyword secondary_keywords
        image_url schema_markup ts nowIso).slug = slugify title
    ∧ (mkArticle title content meta_description primary_keyword secondary_keywords
        image_url schema_markup ts nowIso).id = slugify title ++ "-" ++ ts
    ∧ (mkArticle title content meta_description primary_keyword secondary_keywords
        image_url schema_markup ts nowIso).status = "published"
    ∧ (mkArticle title content meta_description primary_keyword secondary_keywords
        image_url schema_markup ts nowIso).publishedAt
      = some (mkArticle title content meta_description primary_keyword secondary_keywords
        image_url schema_markup ts nowIso).createdAt
    ∧ (save_article title content meta_description primary_keyword secondary_keywords
        image_url schema_markup ts nowIso st).1
      = writeFile st ((mkArticle title content meta_description primary_keyword
          secondary_keywords image_url schema_markup ts nowIso).id ++ ".json")
          (FileContent.ok (mkArticle title content meta_description primary_keyword
            secondary_keywords image_url schema_markup ts nowIso))
    ∧ slugify "Best Gin" = "best-gin" :=
  ⟨rfl, rfl, rfl, rfl, rfl, by decide⟩

theorem mem_validArticles {b : Article} :
    ∀ {st : Store}, b ∈ validArticles st → ∃ n, (n, FileContent.ok b) ∈ st := by
  intro st
  induction st with
  | nil =>
      intro h
      simp [validArticles] at h
  | cons e rest ih =>
      intro h
      obtain ⟨n, c⟩ := e
      cases c with
      | corrupt =>
          rw [validArticles_cons_corrupt] at h
          rcases ih h with ⟨m, hm⟩
          exact ⟨m, List.mem_cons_of_mem _ hm⟩
      | ok a =>
          rw [validArticles_cons_ok] at h
          rcases List.mem_cons.mp h with h1 | h1
          · subst h1
            exact ⟨n, List.mem_cons_self _ _⟩
          · rcases ih h1 with ⟨m, hm⟩
            exact ⟨m, List.mem_cons_of_mem _ hm⟩

theorem delete_clears_slug {slug : String} :
    ∀ {st : Store}, (st.filter (hasSlug slug)).length ≤ 1 →
      ∀ {a : Article}, get_article slug st = .record a →
      ∀ e ∈ (delete_article slug st).1, hasSlug slug e = false := by
  intro st
  induction st with
  | nil =>
      intro _ a h
      rw [get_article] at h
      simp at h
  | cons e rest ih =>
      intro hc a h
      obtain ⟨n, c⟩ := e
      cases c with
      | corrupt =>
          rw [get_article] at h
          rw [List.filter_cons, if_neg (by simp [hasSlug])] at hc
          rw [delete_article]
          intro e he
          rcases List.mem_cons.mp he with h1 | h1
          · subst h1; rfl
          · exact ih hc h e h1
      | ok b =>
          rw [get_article] at h
          rw [List.filter_cons] at hc
          rw [delete_article]
          by_cases hb : (b.slug == slug)
          · rw [if_pos hb] at h
            rw [if_pos hb]
            rw [if_pos (by simp [hasSlug, hb])] at hc
            simp only [List.length_cons] at hc
            have hz : (rest.filter (hasSlug slug)).length = 0 := by omega
            have hnil := List.length_eq_zero.mp hz
            intro e he
            by_contra hcon
            have : e ∈ rest.filter (hasSlug slug) :=
              List.mem_filter.mpr ⟨he, by simpa using hcon⟩
            rw [hnil] at this
            simp at this
          · rw [if_neg hb] at h
            rw [if_neg hb]
            rw [if_neg (by simp [hasSlug, hb])] at hc
            intro e he
            rcases List.mem_cons.mp he with h1 | h1
            · subst h1; simpa [hasSlug] using hb
            · exact ih hc h e h1

/-- C7 (amended): deleting a missing slug is a not-found outcome with the
store unchanged; and when at most one stored record carries the slug (the
claim as stated fails for duplicate slugs, where only the first match is
removed), a successful delete removes the slug from every subsequent
`get_article` and `get_articles` result. -/
theorem c7_delete_removes (st : Store) (slug : String) :
    ((∀ e ∈ st, hasSlug slug e = false) →
        delete_article slug st = (st, notFoundMsg slug))
    ∧ ((st.filter (hasSlug slug)).length ≤ 1 →
        ∀ a : Article, get_article slug st = .record a →
          get_article slug (delete_article slug st).1 = .notFound (notFoundMsg slug)
          ∧ ∀ (status : String) (limit : Int) (b : Article),
              b ∈ get_articles status limit (delete_article slug st).1 → b.slug ≠ slug) := by
  constructor
  · intro h
    exact delete_no_match h
  · intro hc a h
    have hclear := delete_clears_slug hc h
    constructor
    · exact get_article_no_match hclear
    · intro status limit b hb hslug
      rcases mem_scanList hb with h1 | ⟨_, h2⟩
      · simp at h1
      · have h3 : b ∈ validArticles (delete_article slug st).1 :=
          (validArticles_sortDesc_perm _).mem_iff.mp h2
        rcases mem_validArticles h3 with ⟨m, hm⟩
        have := hclear (m, FileContent.ok b) hm
        simp [hasSlug, hslug] at this

/-- C7 counterexample: with two stored records sharing the slug
`"best-gin"`, `delete_article` succeeds but removes only the first match,
and a subsequent `get_article` still returns a record with that slug. -/
theorem c7_counterexample :
    (delete_article "best-gin"
        [("a.json", FileContent.ok artPub), ("b.json", FileContent.ok artPub2)]).2
      = "Article deleted: best-gin"
    ∧ get_article "best-gin"
        (delete_article "best-gin"
          [("a.json", FileContent.ok artPub), ("b.json", FileContent.ok artPub2)]).1
      = .record artPub2 := by
  refine ⟨by decide, by decide⟩

/-- Witness for C7 (amended) at a concrete single-record store. -/
theorem c7_witness :
    get_article "best-gin"
        (delete_article "best-gin" [("a.json", FileContent.ok artPub)]).1
      = .notFound (notFoundMsg "best-gin") :=
  ((c7_delete_removes [("a.json", FileContent.ok artPub)] "best-gin").2
    (by decide) artPub (by decide)).1
